import Mathlib

/-!
Shallow embedding of the `web_client` command-line HTTP client
(`src/main.rs`) and proofs about its URL validation, request dispatch,
form-body parsing, JSON key sorting and response rendering.

Machine integers are modelled as `Nat` (the `u16` port is handled by an
explicit `< 65536` bound where it matters).  Strings are Lean `String`s;
all character-level work happens on `String.data`.  External library
collaborators (the HTTP transport, `serde_json`'s parser and
pretty-printer) are modelled as explicit function parameters; the
standard-library IP-address parsers that `check_ip_address` calls are
modelled faithfully below.
-/

/-- Split a list of characters at every occurrence of `c`
(model of Rust `str::split(c)`; the separators are dropped,
empty segments are kept, and the empty input yields `[[]]`). -/
def splitOnChar (c : Char) : List Char → List (List Char)
  | [] => [[]]
  | x :: xs =>
    if x == c then [] :: splitOnChar c xs
    else
      match splitOnChar c xs with
      | [] => [[x]]
      | g :: gs => (x :: g) :: gs

/-- Join segments with the separator character `c`; inverse of `splitOnChar`. -/
def joinWithChar (c : Char) : List (List Char) → List Char
  | [] => []
  | [g] => g
  | g :: gs => g ++ c :: joinWithChar c gs

/-- Split at the first occurrence of `c` only
(model of Rust `str::splitn(2, c)`): returns the part before the first
`c` and, when `c` occurs, `some` of the part after it. -/
def splitFirstChar (c : Char) : List Char → List Char × Option (List Char)
  | [] => ([], none)
  | x :: xs =>
    if x == c then ([], some xs)
    else
      let r := splitFirstChar c xs
      (x :: r.1, r.2)

/-- Hexadecimal digit test (model of Rust `char::to_digit(16).is_some()`). -/
def isRadix16Digit (c : Char) : Bool :=
  c.isDigit || ('a' ≤ c && c ≤ 'f') || ('A' ≤ c && c ≤ 'F')

/-- Digit test for the radix used by the std IP parsers (10 or 16). -/
def isRadixDigit (radix : Nat) (c : Char) : Bool :=
  if radix == 16 then isRadix16Digit c else c.isDigit

/-- Numeric value of one digit character (both decimal and hex). -/
def digitVal (c : Char) : Nat :=
  if c.isDigit then c.toNat - '0'.toNat
  else if 'a' ≤ c && c ≤ 'f' then c.toNat - 'a'.toNat + 10
  else c.toNat - 'A'.toNat + 10

/-- Value of a digit string in the given radix (most significant first). -/
def digitsVal (radix : Nat) (l : List Char) : Nat :=
  l.foldl (fun acc c => acc * radix + digitVal c) 0

/-- Model of the std `Parser::read_number(radix, max_digits, allow_zero_prefix)`
used by Rust's `Ipv4Addr`/`Ipv6Addr` `FromStr` parsers: consume the maximal
run of digits; succeed iff the run is non-empty, has at most `maxDigits`
digits, does not start with a redundant `'0'` unless `allowZero` is set, and
its value fits the target integer type (`cap`, i.e. 255 for `u8` groups and
65535 for `u16` groups).  On success returns the value and the rest of the
input; on failure the caller backtracks (`read_atomically`), which is
modelled by the caller discarding the input it passed in. -/
def readNumber (radix maxDigits cap : Nat) (allowZero : Bool) (s : List Char) :
    Option (Nat × List Char) :=
  let digs := s.takeWhile (isRadixDigit radix)
  let rest := s.dropWhile (isRadixDigit radix)
  if digs.isEmpty then none
  else if maxDigits < digs.length then none
  else if !allowZero && decide (1 < digs.length) && (digs.head? == some '0') then none
  else if cap < digitsVal radix digs then none
  else some (digitsVal radix digs, rest)

/-- Read the last three `.`-separated octets of a dotted quad
(model of the `read_separator('.', i, read_number)` steps of
`Parser::read_ipv4_addr` for `i = 1, 2, 3`). -/
def readIpv4Groups : Nat → List Char → Option (List Nat × List Char)
  | 0, s => some ([], s)
  | n + 1, s =>
    match s with
    | x :: s1 =>
      if x == '.' then
        match readNumber 10 3 255 false s1 with
        | some (a, s2) =>
          match readIpv4Groups n s2 with
          | some (as, s3) => some (a :: as, s3)
          | none => none
        | none => none
      else none
    | [] => none

/-- Model of Rust std `Parser::read_ipv4_addr`: four `.`-separated groups,
each 1–3 decimal digits with value ≤ 255 and no leading zero.  Returns the
four octet values and the unconsumed rest of the input. -/
def readIpv4 (s : List Char) : Option (List Nat × List Char) :=
  match readNumber 10 3 255 false s with
  | some (a, s1) =>
    match readIpv4Groups 3 s1 with
    | some (as, s2) => some (a :: as, s2)
    | none => none
  | none => none

/-- Model of Rust `Ipv4Addr::from_str`: `read_ipv4_addr` followed by
end-of-input. -/
def Ipv4FromStr (s : String) : Bool :=
  match readIpv4 s.data with
  | some (_, rest) => rest.isEmpty
  | none => false

/-- Model of the std `read_groups` loop of `Parser::read_ipv6_addr`.
`remaining` is the number of group slots still available and `i` the index
of the next group (`i > 0` requires a `':'` separator first).  While at
least two slots remain, a trailing embedded IPv4 address is tried first and
yields two 16-bit groups.  Returns the groups read, whether they ended in
an embedded IPv4 address, and the unconsumed input. -/
def readGroupsAux : Nat → Nat → List Char → List Nat × Bool × List Char
  | 0, _, s => ([], false, s)
  | remaining + 1, i, s =>
    let afterSep : Option (List Char) :=
      if i == 0 then some s
      else match s with
        | ':' :: s1 => some s1
        | _ => none
    match afterSep with
    | none => ([], false, s)
    | some s1 =>
      let ipv4Try : Option (List Nat × List Char) :=
        if remaining ≥ 1 then
          match readIpv4 s1 with
          | some ([a, b, c, d], s2) => some ([a * 256 + b, c * 256 + d], s2)
          | _ => none
        else none
      match ipv4Try with
      | some (gs, s2) => (gs, true, s2)
      | none =>
        match readNumber 16 4 65535 true s1 with
        | some (g, s2) =>
          match readGroupsAux remaining (i + 1) s2 with
          | (gs, flag, s3) => (g :: gs, flag, s3)
        | none => ([], false, s)

/-- Model of Rust std `Parser::read_ipv6_addr`: read up to eight groups; a
full eight groups is a complete address; otherwise an embedded IPv4 address
may not appear before `::`, a literal `::` must follow, and the tail may
hold at most `8 - (head + 1)` further groups, the gap being zero groups. -/
def readIpv6 (s : List Char) : Option (List Nat × List Char) :=
  match readGroupsAux 8 0 s with
  | (head, headIpv4, s1) =>
    if head.length == 8 then some (head, s1)
    else if headIpv4 then none
    else
      match s1 with
      | ':' :: ':' :: s2 =>
        match readGroupsAux (8 - (head.length + 1)) 0 s2 with
        | (tail, _, s3) =>
          some (head ++ List.replicate (8 - head.length - tail.length) 0 ++ tail, s3)
      | _ => none

/-- Model of Rust `Ipv6Addr::from_str`: `read_ipv6_addr` followed by
end-of-input. -/
def Ipv6FromStr (s : String) : Bool :=
  match readIpv6 s.data with
  | some (_, rest) => rest.isEmpty
  | none => false

/-- Model of Rust `str::starts_with(c)` for a single character pattern. -/
def strStartsWith (s : String) (c : Char) : Bool :=
  match s.data with
  | [] => false
  | x :: _ => x == c

/-- Model of Rust `str::ends_with(c)` for a single character pattern. -/
def strEndsWith (s : String) (c : Char) : Bool :=
  match s.data.getLast? with
  | some x => x == c
  | none => false

/-- Model of the slice `&host_str[1..host_str.len() - 1]` taken by
`check_ip_address` between the brackets (`'['` and `']'` are one byte). -/
def stripBrackets (s : String) : String :=
  ⟨(s.data.drop 1).dropLast⟩

/-- `check_ip_address` from `src/main.rs`: given `url.host_str()`, accept a
valid IPv4 literal; otherwise treat a bracket-delimited host as an IPv6
literal and reject it if its interior does not parse; otherwise reject any
host made only of decimal digits and dots; otherwise accept.  A missing
host is an error. -/
def check_ip_address (hostStr : Option String) : Except String Unit :=
  match hostStr with
  | some h =>
    if Ipv4FromStr h then Except.ok ()
    else if strStartsWith h '[' && strEndsWith h ']' then
      let ipv6Str := stripBrackets h
      if !(Ipv6FromStr ipv6Str) then
        Except.error "The URL contains an invalid IPv6 address."
      else Except.ok ()
    else if h.data.all (fun c => c.isDigit || c == '.') then
      Except.error "The URL contains an invalid IPv4 address."
    else Except.ok ()
  | none => Except.error "The URL does not contain a host."

/-- `check_port_number` from `src/main.rs`: given `url.port()` (a `u16` in
Rust, modelled as a `Nat`), reject a port greater than 65535, accept
otherwise; no port means no check. -/
def check_port_number (port : Option Nat) : Except String Unit :=
  match port with
  | some p =>
    if p > 65535 then Except.error "The URL contains an invalid port number."
    else Except.ok ()
  | none => Except.ok ()

/-- Spec-side definition, from the spec's words only: a "valid
dotted-decimal IPv4 address (four octets, each 0–255)" — the textual form
`a.b.c.d` with four components, each a non-empty digit string whose value
is an integer 0–255 (nothing in the spec's words excludes leading
zeros). -/
def specDottedQuad (s : String) : Bool :=
  match splitOnChar '.' s.data with
  | [a, b, c, d] =>
    [a, b, c, d].all fun g => !g.isEmpty && g.all Char.isDigit && digitsVal 10 g ≤ 255
  | _ => false

/-- One octet as the code accepts it: non-empty, at most three decimal
digits, value ≤ 255, and no leading zero unless the octet is exactly
`"0"`. -/
def validOctet (g : List Char) : Bool :=
  !g.isEmpty && g.length ≤ 3 && g.all Char.isDigit &&
    (g.length == 1 || !(g.head? == some '0')) && digitsVal 10 g ≤ 255

/-- Spec-side definition of the amended claim: a dotted quad of four octets,
each 0–255, written with 1–3 digits and without leading zeros. -/
def specDottedQuadStrict (s : String) : Bool :=
  match splitOnChar '.' s.data with
  | [a, b, c, d] => validOctet a && validOctet b && validOctet c && validOctet d
  | _ => false

/-- Model of `args.method.to_uppercase()` in `main` (the methods of
interest are ASCII; Rust's Unicode uppercasing agrees with per-character
ASCII uppercasing on them). -/
def rustToUppercase (s : String) : String :=
  ⟨s.data.map Char.toUpper⟩

/-- One `key=value` pair of the form body, as `parse_data` reads it with
`pair.splitn(2, '=')`: the key is everything before the first `'='`; a
missing `'='` yields an empty value (`unwrap_or("")`). -/
def splitPair (pair : List Char) : String × String :=
  let r := splitFirstChar '=' pair
  (⟨r.1⟩, ⟨r.2.getD []⟩)

/-- Model of `HashMap::insert`: replace the value at an existing key,
otherwise add the binding.  The backing list order is irrelevant to the
mapping; it is kept deterministic for concrete evaluation. -/
def hmInsert (m : List (String × String)) (k v : String) : List (String × String) :=
  if m.any (fun p => p.1 == k) then
    m.map (fun p => if p.1 == k then (p.1, v) else p)
  else m ++ [(k, v)]

/-- Model of `HashMap::get`. -/
def mapLookup (m : List (String × String)) (k : String) : Option String :=
  match m.find? (fun p => p.1 == k) with
  | some p => some p.2
  | none => none

/-- `parse_data` from `src/main.rs`: split the body on `'&'`, split each
pair at the first `'='` (no `'='` means empty value) and insert into the
map, so a later duplicate key overwrites an earlier one. -/
def parse_data (dataStr : String) : List (String × String) :=
  (splitOnChar '&' dataStr.data).foldl
    (fun params pair =>
      let kv := splitPair pair
      hmInsert params kv.1 kv.2) []

/-- Spec-side: the `(key, value)` pairs of a body string in order, per the
spec's words "split it on `&` into pairs, split each pair on the first `=`
into (key, value) — a pair with no `=` yields an empty value". -/
def pairsOf (body : String) : List (String × String) :=
  (splitOnChar '&' body.data).map splitPair

/-- Spec-side: the value of the last pair carrying key `k`
("duplicate keys: last occurrence wins"). -/
def lastWins (body : String) (k : String) : Option String :=
  (((pairsOf body).filter (fun p => p.1 == k)).getLast?).map Prod.snd

/-- The calls the transport collaborator (`reqwest::blocking::Client`) can
receive from `make_request`: a GET, a POST with a form body, or a POST
with no body. -/
inductive TransportCall where
  | get
  | postForm (params : List (String × String))
  | postNoBody
  deriving DecidableEq

/-- What the transport collaborator returns: a response carrying a status
code and the result of decoding its body as text, a connect-level failure
(`Error::is_connect()`), or any other transport error with its display
message. -/
inductive TransportResp where
  | ok (status : Nat) (text : Except String String)
  | connectErr
  | err (msg : String)

/-- Model of `StatusCode::is_success()`: the 2xx range. -/
def statusIsSuccess (code : Nat) : Bool :=
  200 ≤ code && code < 300

/-- The response-handling half of `make_request`: a non-2xx status is an
error, then the body-decode result is passed through; connect failures and
other transport failures get their distinguished messages. -/
def responseToResult : TransportResp → Except String String
  | TransportResp.ok code text =>
    if !(statusIsSuccess code) then
      Except.error ("Request failed with status code: " ++ toString code ++ ".")
    else
      match text with
      | Except.ok t => Except.ok t
      | Except.error e => Except.error ("Failed to read response text: " ++ e)
  | TransportResp.connectErr =>
    Except.error "Unable to connect to the server. Perhaps the network is offline or the server hostname cannot be resolved."
  | TransportResp.err e => Except.error ("Request Error: " ++ e)

/-- `make_request` from `src/main.rs`, with the transport collaborator as
an explicit parameter.  The first component records the transport call
made, if any: `"GET"` issues a GET, `"POST"` issues a POST (with the
parsed form body when data is supplied), and any other method string makes
no transport call and fails with the unsupported-method message. -/
def make_request (transport : TransportCall → TransportResp) (method : String)
    (data : Option String) : Option TransportCall × Except String String :=
  match method with
  | "GET" => (some TransportCall.get, responseToResult (transport TransportCall.get))
  | "POST" =>
    match data with
    | some dataStr =>
      let params := parse_data dataStr
      (some (TransportCall.postForm params),
        responseToResult (transport (TransportCall.postForm params)))
    | none =>
      (some TransportCall.postNoBody,
        responseToResult (transport TransportCall.postNoBody))
  | _ => (none, Except.error ("Unsupported HTTP method: " ++ method))

/-- The dispatcher as `main` invokes it: the method argument is
upper-cased (`src/main.rs` line 29) before `make_request` sees it. -/
def dispatchMethod (transport : TransportCall → TransportResp) (methodArg : String)
    (data : Option String) : Option TransportCall × Except String String :=
  make_request transport (rustToUppercase methodArg) data

/-- `serde_json::Value`: null, booleans, numbers, strings, arrays and
objects.  `sort_json` treats numbers atomically (`value.clone()`), so the
precise number representation is irrelevant; an `Int` stands in for it.
An object is its list of entries. -/
inductive Json where
  | null
  | bool (b : Bool)
  | num (n : Int)
  | str (s : String)
  | arr (items : List Json)
  | obj (fields : List (String × Json))

/-- The entry list of an object, `[]` for any other value. -/
def objFields : Json → List (String × Json)
  | Json.obj fields => fields
  | _ => []

/-- Model of `map.get(key).unwrap()` in `sort_json`: the value at `key`.
In the Rust code the key always comes from `map.keys()`, so the `.unwrap()`
never panics; the `Json.null` default is never reached for such keys. -/
def lookupField (fields : List (String × Json)) (k : String) : Json :=
  match fields.find? (fun p => p.1 == k) with
  | some p => p.2
  | none => Json.null

/-- Lexicographic (codepoint = UTF-8 byte) order on character lists,
modelling Rust's `Ord for str`. -/
def listCharLe : List Char → List Char → Bool
  | [], _ => true
  | _ :: _, [] => false
  | a :: as, b :: bs =>
    if a.toNat < b.toNat then true
    else if b.toNat < a.toNat then false
    else listCharLe as bs

/-- Rust's `Ord for String`, byte order (UTF-8 byte order coincides with
codepoint order). -/
def strLe (a b : String) : Bool :=
  listCharLe a.data b.data

/-- Insert into a `strLe`-sorted list, keeping it sorted. -/
def insertSorted (x : String) : List String → List String
  | [] => [x]
  | y :: ys => if strLe x y then x :: y :: ys else y :: insertSorted x ys

/-- Model of `keys.sort()` in `sort_json`: the `strLe`-sorted permutation
of the keys.  (Rust's stable sort produces the same list: a sorted
permutation of a list of strings is unique because duplicates are
identical.) -/
def sortKeys : List String → List String
  | [] => []
  | x :: xs => insertSorted x (sortKeys xs)

/-- Adjacent-pairs sortedness of a list of strings under `strLe`. -/
def strSorted : List String → Bool
  | [] => true
  | [_] => true
  | a :: b :: rest => strLe a b && strSorted (b :: rest)

/-- `sort_json` from `src/main.rs`: objects are rebuilt by collecting the
keys, sorting them, and inserting `(key, sort_json(map.get(key)))` in
sorted order; arrays keep their order with each element recursively
sorted; every other value is returned unchanged. -/
def sort_json : Json → Json
  | Json.null => Json.null
  | Json.bool b => Json.bool b
  | Json.num n => Json.num n
  | Json.str s => Json.str s
  | Json.arr items => Json.arr (items.attach.map fun x => sort_json x.1)
  | Json.obj fields =>
      Json.obj ((sortKeys (fields.map Prod.fst)).map
        fun k => (k, sort_json (lookupField fields k)))
decreasing_by
  · have h1 := List.sizeOf_lt_of_mem x.2
    simp only [Json.arr.sizeOf_spec]
    omega
  · have h2 : sizeOf (lookupField fields k) < 1 + sizeOf fields := by
      unfold lookupField
      cases hf : List.find? (fun p => p.1 == k) fields with
      | none =>
        have h0 : 0 < sizeOf fields := by cases fields <;> simp
        simp
        omega
      | some p =>
        have hm := List.mem_of_find?_eq_some hf
        have h3 := List.sizeOf_lt_of_mem hm
        cases p with
        | mk a b =>
          simp at h3 ⊢
          omega
    simp only [Json.obj.sizeOf_spec]
    omega

/-- Every object anywhere inside the value has its keys in `strLe` order. -/
def allObjSorted : Json → Bool
  | Json.null => true
  | Json.bool _ => true
  | Json.num _ => true
  | Json.str _ => true
  | Json.arr items => items.attach.all fun x => allObjSorted x.1
  | Json.obj fields =>
      strSorted (fields.map Prod.fst) && fields.attach.all fun p => allObjSorted p.1.2
decreasing_by
  · have h1 := List.sizeOf_lt_of_mem x.2
    simp only [Json.arr.sizeOf_spec]
    omega
  · have h1 := List.sizeOf_lt_of_mem p.2
    have h2 : sizeOf p.1.2 < sizeOf p.1 := by
      cases p.1 with
      | mk a b => simp
    simp only [Json.obj.sizeOf_spec]
    omega

/-- `handle_response` from `src/main.rs`, with `serde_json::from_str` and
`serde_json::to_string_pretty` as explicit collaborator parameters: JSON
bodies are printed under the sorted-keys header after `sort_json`;
anything that fails to parse is printed verbatim under the plain header
(one `println!` emits the header, a newline, and the body). -/
def handle_response (parseJson : String → Option Json) (pretty : Json → String)
    (response : String) : List String :=
  match parseJson response with
  | some v => ["Response body (JSON with sorted keys):", pretty (sort_json v)]
  | none => ["Response:\n" ++ response]

/-- A printed line starting with `"Error: "`, the shape of every error
diagnostic `main` prints. -/
def isErrorLine (s : String) : Bool :=
  List.isPrefixOf "Error: ".data s.data

/-- One observable step of `main`: a printed line, or the invocation of
`check_port_number` or of `make_request`. -/
inductive Event where
  | println (line : String)
  | callCheckPort
  | callMakeRequest
  deriving DecidableEq

/-- Whether an event is an `"Error: "` line being printed. -/
def isErrorEvent : Event → Bool
  | Event.println l => isErrorLine l
  | _ => false

/-- The error lines of a trace. -/
def errorLines (tr : List Event) : List Event :=
  tr.filter isErrorEvent

/-- The `Ok(url)` arm of `main` as an event trace: echo the URL, method
and optional data, then run `check_ip_address`; only if it passes, run
`check_port_number`; only if that passes, call `make_request` and either
render the response or print its error. -/
def mainAfterParse (parseJson : String → Option Json) (pretty : Json → String)
    (transport : TransportCall → TransportResp)
    (urlDisplay : String) (host : Option String) (port : Option Nat)
    (methodArg : String) (data : Option String) : List Event :=
  let method := rustToUppercase methodArg
  [Event.println ("Requesting URL: " ++ urlDisplay),
   Event.println ("Method: " ++ method)] ++
  (match data with
   | some dataStr => [Event.println ("Data: " ++ dataStr)]
   | none => []) ++
  (match check_ip_address host with
   | Except.error e => [Event.println ("Error: " ++ e)]
   | Except.ok _ =>
     Event.callCheckPort ::
     (match check_port_number port with
      | Except.error e => [Event.println ("Error: " ++ e)]
      | Except.ok _ =>
        Event.callMakeRequest ::
        (match make_request transport method data with
         | (_, Except.ok response) =>
           (handle_response parseJson pretty response).map Event.println
         | (_, Except.error e) => [Event.println ("Error: " ++ e)])))

theorem strData_append (s t : String) : (s ++ t).data = s.data ++ t.data := by
  cases s
  cases t
  rfl

theorem isPrefixOf_append_self (l r : List Char) : List.isPrefixOf l (l ++ r) = true := by
  induction l with
  | nil => simp [List.isPrefixOf]
  | cons a as ih => simp [List.isPrefixOf, ih]

theorem isErrorLine_head_ne (s : String) (c : Char) (rest : List Char)
    (h : s.data = c :: rest) (hc : c ≠ 'E') : isErrorLine s = false := by
  unfold isErrorLine
  rw [h, show "Error: ".data = 'E' :: ['r', 'r', 'o', 'r', ':', ' '] from rfl]
  have hbe : ('E' == c) = false := beq_eq_false_iff_ne.mpr (Ne.symm hc)
  simp [List.isPrefixOf, hbe]

theorem isErrorLine_error_line (e : String) : isErrorLine ("Error: " ++ e) = true := by
  unfold isErrorLine
  rw [strData_append]
  exact isPrefixOf_append_self _ _

/-- C3: for every parsed URL with an explicit port, `check_port_number`
returns the invalid-port error exactly when the port is outside
`[0, 65535]` (the port is a `Nat`, so only the upper bound can fail);
port 70000 is rejected, port 80 and an absent port produce no error. -/
theorem port_check_rejects_out_of_range :
    (∀ p : Nat,
      (check_port_number (some p) = Except.error "The URL contains an invalid port number."
        ↔ 65535 < p)
      ∧ (check_port_number (some p) = Except.ok () ↔ p ≤ 65535))
    ∧ check_port_number (some 80) = Except.ok ()
    ∧ check_port_number (some 70000) = Except.error "The URL contains an invalid port number."
    ∧ check_port_number none = Except.ok () := by
  refine ⟨fun p => ?_, rfl, rfl, rfl⟩
  unfold check_port_number
  by_cases h : p > 65535
  · simp [h]
  · simp [h]
    omega

/-- C10: the invalid-port branch of `check_port_number` is unreachable for
any port a parsed URL can carry, because `url.port()` yields a `u16`
(modelled by the `< 65536` bound) and the guard requires `> 65535`. -/
theorem port_check_unreachable_for_u16 (port : Option Nat)
    (h : ∀ p, port = some p → p < 65536) : check_port_number port = Except.ok () := by
  cases port with
  | none => rfl
  | some p =>
    have hp := h p rfl
    unfold check_port_number
    have hn : ¬ p > 65535 := by omega
    simp [hn]

theorem port_check_unreachable_for_u16_witness :
    check_port_number (some 80) = Except.ok () :=
  port_check_unreachable_for_u16 (some 80) (by intro p hp; simp at hp; omega)

/-- C5: the dispatcher supports exactly `GET` and `POST`, compared after
upper-casing the method argument; any other method makes no transport call
and fails with `Unsupported HTTP method: <method>`, whatever the body. -/
theorem dispatch_supports_only_get_post :
    ∀ (transport : TransportCall → TransportResp) (methodArg : String) (data : Option String),
      (rustToUppercase methodArg = "GET" ∨ rustToUppercase methodArg = "POST" →
        (dispatchMethod transport methodArg data).1.isSome = true)
      ∧ (rustToUppercase methodArg ≠ "GET" → rustToUppercase methodArg ≠ "POST" →
          dispatchMethod transport methodArg data =
            (none, Except.error ("Unsupported HTTP method: " ++ rustToUppercase methodArg))) := by
  intro transport methodArg data
  constructor
  · intro h
    unfold dispatchMethod
    rcases h with h | h <;> rw [h] <;> cases data <;> rfl
  · intro h1 h2
    unfold dispatchMethod make_request
    split
    · exact absurd (by assumption) h1
    · exact absurd (by assumption) h2
    · rfl

theorem dispatch_supports_only_get_post_witness :
    dispatchMethod (fun _ => TransportResp.connectErr) "PUT" none
      = (none, Except.error "Unsupported HTTP method: PUT") := by
  have h := (dispatch_supports_only_get_post (fun _ => TransportResp.connectErr) "PUT" none).2
    (by decide) (by decide)
  exact h.trans rfl

/-- C9: a body that fails to parse as JSON is rendered verbatim under the
plain header and signals no error (no printed line starts with
`"Error: "`); every other failure site of the request path does produce an
error value, so the JSON-parse fallback is the sole non-error degrade. -/
theorem render_fallback_verbatim :
    (∀ (parseJson : String → Option Json) (pretty : Json → String) (response : String),
        parseJson response = none →
        handle_response parseJson pretty response = ["Response:\n" ++ response]
        ∧ ∀ line ∈ handle_response parseJson pretty response, isErrorLine line = false)
    ∧ (∀ e, responseToResult (TransportResp.err e) = Except.error ("Request Error: " ++ e))
    ∧ responseToResult TransportResp.connectErr =
        Except.error "Unable to connect to the server. Perhaps the network is offline or the server hostname cannot be resolved."
    ∧ (∀ code text, statusIsSuccess code = false →
        responseToResult (TransportResp.ok code text) =
          Except.error ("Request failed with status code: " ++ toString code ++ "."))
    ∧ (∀ code e, statusIsSuccess code = true →
        responseToResult (TransportResp.ok code (Except.error e)) =
          Except.error ("Failed to read response text: " ++ e)) := by
  refine ⟨?_, fun e => rfl, rfl, ?_, ?_⟩
  · intro parseJson pretty response hp
    unfold handle_response
    rw [hp]
    refine ⟨rfl, ?_⟩
    intro line hl
    simp only [List.mem_singleton] at hl
    subst hl
    have hd : ("Response:\n" ++ response).data
        = 'R' :: ("esponse:\n".data ++ response.data) := by
      rw [strData_append]
      rfl
    exact isErrorLine_head_ne _ 'R' _ hd (by decide)
  · intro code text h
    unfold responseToResult
    simp [h]
  · intro code e h
    unfold responseToResult
    simp [h]

theorem render_fallback_verbatim_witness :
    handle_response (fun _ => none) (fun _ => "") "not json\x7b"
      = ["Response:\nnot json\x7b"] := by
  have h := (render_fallback_verbatim.1 (fun _ => none) (fun _ => "") "not json\x7b" rfl).1
  exact h.trans rfl

theorem readNumber_none_of_head_not_digit (c : Char) (rest : List Char)
    (hc : c.isDigit = false) : readNumber 10 3 255 false (c :: rest) = none := by
  unfold readNumber
  simp [List.takeWhile_cons, isRadixDigit, hc]

theorem Ipv4FromStr_false_of_head_not_digit (s : String) (c : Char) (rest : List Char)
    (h : s.data = c :: rest) (hc : c.isDigit = false) : Ipv4FromStr s = false := by
  unfold Ipv4FromStr
  rw [h]
  unfold readIpv4
  rw [readNumber_none_of_head_not_digit c rest hc]

theorem check_ip_bracket_reduction (h : String) (rest : List Char)
    (hd : h.data = '[' :: rest) (he : strEndsWith h ']' = true) :
    check_ip_address (some h) =
      (if Ipv6FromStr (stripBrackets h) = true then Except.ok ()
       else Except.error "The URL contains an invalid IPv6 address.") := by
  have hip4 : Ipv4FromStr h = false :=
    Ipv4FromStr_false_of_head_not_digit h '[' rest hd (by decide)
  have hs : strStartsWith h '[' = true := by
    unfold strStartsWith
    rw [hd]
    simp
  simp only [check_ip_address, hip4, hs, he]
  cases hv : Ipv6FromStr (stripBrackets h) <;> simp [hv]

/-- C2: for a bracket-delimited host the validator strips the brackets and
accepts exactly when the interior parses as an IPv6 address, rejecting
with the invalid-IPv6 message otherwise. -/
theorem bracket_host_checks_ipv6 :
    ∀ h : String, strStartsWith h '[' = true → strEndsWith h ']' = true →
      (check_ip_address (some h) = Except.ok () ↔ Ipv6FromStr (stripBrackets h) = true)
      ∧ (Ipv6FromStr (stripBrackets h) = false →
          check_ip_address (some h) = Except.error "The URL contains an invalid IPv6 address.") := by
  intro h hs he
  obtain ⟨rest, hd⟩ : ∃ rest, h.data = '[' :: rest := by
    unfold strStartsWith at hs
    cases hdata : h.data with
    | nil => rw [hdata] at hs; simp at hs
    | cons x xs =>
      rw [hdata] at hs
      simp at hs
      subst hs
      exact ⟨xs, rfl⟩
  rw [check_ip_bracket_reduction h rest hd he]
  cases hv : Ipv6FromStr (stripBrackets h) <;> simp [hv]

theorem bracket_host_checks_ipv6_witness :
    check_ip_address (some "[::1]") = Except.ok ()
    ∧ check_ip_address (some "[::zzzz]") = Except.error "The URL contains an invalid IPv6 address." :=
  ⟨((bracket_host_checks_ipv6 "[::1]" (by decide) (by decide)).1).mpr (by decide),
   (bracket_host_checks_ipv6 "[::zzzz]" (by decide) (by decide)).2 (by decide)⟩

/-- C4: whenever host validation fails, the trace of `main` ends right
after the echo lines with that single validation error line:
`check_port_number` is never invoked, `make_request` is never invoked,
exactly one error line is printed, and it is the last event. -/
theorem host_failure_short_circuits :
    ∀ (parseJson : String → Option Json) (pretty : Json → String)
      (transport : TransportCall → TransportResp)
      (urlDisplay : String) (host : Option String) (port : Option Nat)
      (methodArg : String) (data : Option String) (e : String),
      check_ip_address host = Except.error e →
      mainAfterParse parseJson pretty transport urlDisplay host port methodArg data =
        [Event.println ("Requesting URL: " ++ urlDisplay),
         Event.println ("Method: " ++ rustToUppercase methodArg)] ++
        (match data with
         | some dataStr => [Event.println ("Data: " ++ dataStr)]
         | none => []) ++
        [Event.println ("Error: " ++ e)]
      ∧ Event.callCheckPort ∉
          mainAfterParse parseJson pretty transport urlDisplay host port methodArg data
      ∧ Event.callMakeRequest ∉
          mainAfterParse parseJson pretty transport urlDisplay host port methodArg data
      ∧ errorLines (mainAfterParse parseJson pretty transport urlDisplay host port methodArg data)
          = [Event.println ("Error: " ++ e)]
      ∧ (mainAfterParse parseJson pretty transport urlDisplay host port methodArg data).getLast?
          = some (Event.println ("Error: " ++ e)) := by
  intro parseJson pretty transport urlDisplay host port methodArg data e hcheck
  have htr : mainAfterParse parseJson pretty transport urlDisplay host port methodArg data =
      [Event.println ("Requesting URL: " ++ urlDisplay),
       Event.println ("Method: " ++ rustToUppercase methodArg)] ++
      (match data with
       | some dataStr => [Event.println ("Data: " ++ dataStr)]
       | none => []) ++
      [Event.println ("Error: " ++ e)] := by
    unfold mainAfterParse
    rw [hcheck]
  have hreq : isErrorLine ("Requesting URL: " ++ urlDisplay) = false := by
    apply isErrorLine_head_ne _ 'R' ("equesting URL: ".data ++ urlDisplay.data)
    · rw [strData_append]
      rfl
    · decide
  have hmet : isErrorLine ("Method: " ++ rustToUppercase methodArg) = false := by
    apply isErrorLine_head_ne _ 'M' ("ethod: ".data ++ (rustToUppercase methodArg).data)
    · rw [strData_append]
      rfl
    · decide
  have herr := isErrorLine_error_line e
  rw [htr]
  cases data with
  | none =>
    refine ⟨rfl, by simp, by simp, ?_, by simp [List.getLast?]⟩
    simp [errorLines, List.filter, isErrorEvent, hreq, hmet, herr]
  | some dataStr =>
    have hdat : isErrorLine ("Data: " ++ dataStr) = false := by
      apply isErrorLine_head_ne _ 'D' ("ata: ".data ++ dataStr.data)
      · rw [strData_append]
        rfl
      · decide
    refine ⟨rfl, by simp, by simp, ?_, by simp [List.getLast?]⟩
    simp [errorLines, List.filter, isErrorEvent, hreq, hmet, hdat, herr]

theorem host_failure_short_circuits_witness :
    Event.callCheckPort ∉
      mainAfterParse (fun _ => none) (fun _ => "") (fun _ => TransportResp.connectErr)
        "http://999.999.999.999/" (some "999.999.999.999") none "GET" none
    ∧ Event.callMakeRequest ∉
        mainAfterParse (fun _ => none) (fun _ => "") (fun _ => TransportResp.connectErr)
          "http://999.999.999.999/" (some "999.999.999.999") none "GET" none
    ∧ errorLines
        (mainAfterParse (fun _ => none) (fun _ => "") (fun _ => TransportResp.connectErr)
          "http://999.999.999.999/" (some "999.999.999.999") none "GET" none)
        = [Event.println "Error: The URL contains an invalid IPv4 address."] := by
  have h := host_failure_short_circuits (fun _ => none) (fun _ => "")
    (fun _ => TransportResp.connectErr) "http://999.999.999.999/"
    (some "999.999.999.999") none "GET" none
    "The URL contains an invalid IPv4 address." rfl
  exact ⟨h.2.1, h.2.2.1, h.2.2.2.1.trans rfl⟩

theorem mapLookup_cons (p : String × String) (ps : List (String × String)) (kq : String) :
    mapLookup (p :: ps) kq = if p.1 == kq then some p.2 else mapLookup ps kq := by
  unfold mapLookup
  rw [List.find?_cons]
  by_cases h : (p.1 == kq) = true <;> simp [h]

theorem mapLookup_map_update (m : List (String × String)) (k v kq : String) :
    mapLookup (m.map fun p => if p.1 == k then (p.1, v) else p) kq
      = if kq == k then (mapLookup m k).map (fun _ => v) else mapLookup m kq := by
  induction m with
  | nil => by_cases hq : (kq == k) = true <;> simp [mapLookup, hq]
  | cons p ps ih =>
    simp only [beq_iff_eq] at ih
    by_cases hpk : p.1 = k
    · by_cases hq : kq = k
      · simp [List.map_cons, mapLookup_cons, hpk, hq]
      · have hq2 : ¬ k = kq := fun h => hq h.symm
        simp [List.map_cons, mapLookup_cons, hpk, hq, hq2, ih]
    · by_cases hq : kq = k
      · subst hq
        simp [List.map_cons, mapLookup_cons, hpk, ih]
      · by_cases hpq : p.1 = kq
        · simp [List.map_cons, mapLookup_cons, hpk, hpq, hq]
        · simp [List.map_cons, mapLookup_cons, hpk, hpq, hq, ih]

theorem mapLookup_append (m1 m2 : List (String × String)) (kq : String) :
    mapLookup (m1 ++ m2) kq = (mapLookup m1 kq).or (mapLookup m2 kq) := by
  induction m1 with
  | nil => simp [mapLookup, Option.or]
  | cons p ps ih =>
    simp only [List.cons_append, mapLookup, List.find?_cons] at *
    by_cases h : (p.1 == kq) = true
    · simp [h, Option.or]
    · simp only [Bool.not_eq_true] at h
      simp only [h]
      exact ih

theorem mapLookup_eq_none_of_any_false (m : List (String × String)) (k : String)
    (h : (m.any fun p => p.1 == k) = false) : mapLookup m k = none := by
  induction m with
  | nil => rfl
  | cons p ps ih =>
    simp only [List.any_cons, Bool.or_eq_false_iff] at h
    simp only [mapLookup, List.find?_cons, h.1]
    exact ih h.2

theorem mapLookup_isSome_of_any (m : List (String × String)) (k : String)
    (h : (m.any fun p => p.1 == k) = true) : ∃ w, mapLookup m k = some w := by
  induction m with
  | nil => simp at h
  | cons p ps ih =>
    simp only [List.any_cons, Bool.or_eq_true] at h
    by_cases hp : (p.1 == k) = true
    · exact ⟨p.2, by simp [mapLookup, List.find?_cons, hp]⟩
    · simp only [Bool.not_eq_true] at hp
      rcases h with h | h
      · rw [hp] at h
        cases h
      · obtain ⟨w, hw⟩ := ih h
        refine ⟨w, ?_⟩
        simp only [mapLookup, List.find?_cons, hp] at *
        exact hw

theorem mapLookup_hmInsert (m : List (String × String)) (k v kq : String) :
    mapLookup (hmInsert m k v) kq = if kq == k then some v else mapLookup m kq := by
  unfold hmInsert
  cases hany : (m.any fun p => p.1 == k) with
  | true =>
    simp only [hany, if_true]
    rw [mapLookup_map_update]
    by_cases hq : (kq == k) = true
    · obtain ⟨w, hw⟩ := mapLookup_isSome_of_any m k hany
      simp [hq, hw]
    · simp only [Bool.not_eq_true] at hq
      simp [hq]
  | false =>
    simp only [hany, Bool.false_eq_true, if_false]
    rw [mapLookup_append]
    by_cases hq : (kq == k) = true
    · have hkk := beq_iff_eq.mp hq
      subst hkk
      rw [mapLookup_eq_none_of_any_false m kq hany]
      simp [hq, mapLookup, List.find?]
    · have hkq : (k == kq) = false := by
        apply beq_eq_false_iff_ne.mpr
        intro h
        rw [h] at hq
        simp at hq
      have hnone : mapLookup [(k, v)] kq = none := by
        simp [mapLookup, List.find?_cons, hkq]
      rw [hnone]
      simp only [Bool.not_eq_true] at hq
      cases hm : mapLookup m kq <;> simp [hq, Option.or]

theorem getLast?_cons_of_isSome (x w : α) (l : List α) (h : l.getLast? = some w) :
    (x :: l).getLast? = some w := by
  cases l with
  | nil => cases h
  | cons y t =>
    rw [List.getLast?_cons_cons]
    exact h

theorem mapLookup_foldl_pairs (pairs : List (List Char)) (acc : List (String × String))
    (k : String) :
    mapLookup (pairs.foldl (fun params pair =>
        let kv := splitPair pair
        hmInsert params kv.1 kv.2) acc) k
      = (((pairs.map splitPair).filter (fun p => p.1 == k)).getLast?.map Prod.snd).or
          (mapLookup acc k) := by
  induction pairs generalizing acc with
  | nil => simp [Option.or]
  | cons ph pt ih =>
    simp only [List.foldl_cons, List.map_cons, List.filter_cons]
    rw [ih]
    by_cases hk : ((splitPair ph).1 == k) = true
    · simp only [hk, if_true]
      cases hF : ((pt.map splitPair).filter (fun p => p.1 == k)).getLast? with
      | some w =>
        rw [getLast?_cons_of_isSome _ _ _ hF]
        simp [Option.or]
      | none =>
        have hFnil := List.getLast?_eq_none_iff.mp hF
        rw [hFnil, mapLookup_hmInsert]
        have hkk : (k == (splitPair ph).1) = true := by
          rw [beq_iff_eq]
          exact (beq_iff_eq.mp hk).symm
        simp [hkk, Option.or]
    · simp only [Bool.not_eq_true] at hk
      simp only [hk, Bool.false_eq_true, if_false]
      rw [mapLookup_hmInsert]
      have hkk : (k == (splitPair ph).1) = false := by
        apply beq_eq_false_iff_ne.mpr
        intro h
        rw [h] at hk
        simp at hk
      simp [hkk]

/-- C6: the form-body parser splits the body on `&`, each pair at the first
`=` (no `=` means empty value), and on duplicate keys the last pair wins:
looking a key up in the parsed map yields the value of the last pair with
that key; `"a=1&b=2&a=3"` yields the mapping with exactly `a ↦ "3"` and
`b ↦ "2"`. -/
theorem parse_data_last_wins :
    (∀ (body : String) (k : String), mapLookup (parse_data body) k = lastWins body k)
    ∧ parse_data "a=1&b=2&a=3" = [("a", "3"), ("b", "2")]
    ∧ mapLookup (parse_data "a=1&b=2&a=3") "a" = some "3"
    ∧ mapLookup (parse_data "a=1&b=2&a=3") "b" = some "2"
    ∧ mapLookup (parse_data "a=1&b=2&a=3") "c" = none := by
  refine ⟨?_, rfl, rfl, rfl, rfl⟩
  intro body k
  unfold parse_data lastWins pairsOf
  rw [mapLookup_foldl_pairs]
  cases h : (((splitOnChar '&' body.data).map splitPair).filter
      (fun p => p.1 == k)).getLast? <;> simp [Option.or, mapLookup, List.find?]

theorem listCharLe_total (a : List Char) : ∀ b, listCharLe a b = true ∨ listCharLe b a = true := by
  induction a with
  | nil => intro b; left; rfl
  | cons x xs ih =>
    intro b
    cases b with
    | nil => right; rfl
    | cons y ys =>
      by_cases h1 : x.toNat < y.toNat
      · left
        simp [listCharLe, h1]
      · by_cases h2 : y.toNat < x.toNat
        · right
          simp [listCharLe, h2]
        · rcases ih ys with h | h
          · left
            simp [listCharLe, h1, h2, h]
          · right
            simp [listCharLe, h1, h2, h]

theorem strLe_total (a b : String) : strLe a b = true ∨ strLe b a = true :=
  listCharLe_total a.data b.data

theorem insertSorted_perm (x : String) (l : List String) :
    List.Perm (insertSorted x l) (x :: l) := by
  induction l with
  | nil => exact List.Perm.refl _
  | cons y ys ih =>
    unfold insertSorted
    by_cases h : strLe x y = true
    · simp [h]
    · simp only [h, if_false]
      exact (List.Perm.cons y ih).trans (List.Perm.swap x y ys)

theorem sortKeys_perm (l : List String) : List.Perm (sortKeys l) l := by
  induction l with
  | nil => exact List.Perm.refl _
  | cons x xs ih =>
    unfold sortKeys
    exact (insertSorted_perm x (sortKeys xs)).trans (List.Perm.cons x ih)

theorem strSorted_cons_cons (a b : String) (l : List String) :
    strSorted (a :: b :: l) = (strLe a b && strSorted (b :: l)) := rfl

theorem strSorted_parts (a b : String) (l : List String)
    (h : strSorted (a :: b :: l) = true) : strLe a b = true ∧ strSorted (b :: l) = true := by
  rw [strSorted_cons_cons] at h
  simp only [Bool.and_eq_true] at h
  exact h

theorem strSorted_of_parts (a b : String) (l : List String)
    (h1 : strLe a b = true) (h2 : strSorted (b :: l) = true) :
    strSorted (a :: b :: l) = true := by
  rw [strSorted_cons_cons, h1, h2]
  rfl

theorem insertSorted_sorted (x : String) (l : List String) (h : strSorted l = true) :
    strSorted (insertSorted x l) = true := by
  induction l with
  | nil => rfl
  | cons y ys ih =>
    unfold insertSorted
    by_cases hxy : strLe x y = true
    · rw [if_pos hxy]
      exact strSorted_of_parts x y ys hxy h
    · rw [if_neg hxy]
      have hyx : strLe y x = true := by
        rcases strLe_total x y with h1 | h1
        · exact absurd h1 hxy
        · exact h1
      cases ys with
      | nil =>
        rw [show insertSorted x [] = [x] from rfl]
        exact strSorted_of_parts y x [] hyx rfl
      | cons z zs =>
        obtain ⟨hyz, hzs⟩ := strSorted_parts y z zs h
        have hins := ih hzs
        rw [show insertSorted x (z :: zs)
            = if strLe x z = true then x :: z :: zs else z :: insertSorted x zs from rfl] at hins ⊢
        by_cases hxz : strLe x z = true
        · rw [if_pos hxz]
          exact strSorted_of_parts y x (z :: zs) hyx (strSorted_of_parts x z zs hxz hzs)
        · rw [if_neg hxz]
          rw [if_neg hxz] at hins
          exact strSorted_of_parts y z (insertSorted x zs) hyz hins

theorem sortKeys_sorted (l : List String) : strSorted (sortKeys l) = true := by
  induction l with
  | nil => rfl
  | cons x xs ih => exact insertSorted_sorted x (sortKeys xs) ih

theorem sortKeys_of_sorted (l : List String) (h : strSorted l = true) : sortKeys l = l := by
  induction l with
  | nil => rfl
  | cons x xs ih =>
    have hxs : strSorted xs = true := by
      cases xs with
      | nil => rfl
      | cons y ys => exact (strSorted_parts x y ys h).2
    unfold sortKeys
    rw [ih hxs]
    cases xs with
    | nil => rfl
    | cons y ys =>
      obtain ⟨hxy, _⟩ := strSorted_parts x y ys h
      unfold insertSorted
      rw [if_pos hxy]

theorem sort_json_arr (items : List Json) :
    sort_json (Json.arr items) = Json.arr (items.map sort_json) := by
  rw [sort_json]
  congr 1
  exact List.attach_map_val items sort_json

theorem sort_json_obj (fields : List (String × Json)) :
    sort_json (Json.obj fields) = Json.obj ((sortKeys (fields.map Prod.fst)).map
      fun k => (k, sort_json (lookupField fields k))) := by
  rw [sort_json]

theorem lookupField_cons (p : String × Json) (fields : List (String × Json)) (k : String) :
    lookupField (p :: fields) k = if p.1 == k then p.2 else lookupField fields k := by
  unfold lookupField
  rw [List.find?_cons]
  by_cases h : (p.1 == k) = true <;> simp [h]

theorem lookupField_map_keys (keys : List String) (s : String → Json) (k : String)
    (hk : k ∈ keys) : lookupField (keys.map fun q => (q, s q)) k = s k := by
  induction keys with
  | nil => cases hk
  | cons k0 ks ih =>
    rw [List.map_cons, lookupField_cons]
    by_cases h : k0 = k
    · subst h
      simp
    · have hb : ((k0, s k0).1 == k) = false := by
        apply beq_eq_false_iff_ne.mpr
        exact h
      rw [hb]
      simp only [Bool.false_eq_true, if_false]
      rcases List.mem_cons.mp hk with h1 | h1
      · exact absurd h1.symm h
      · exact ih h1

theorem lookupField_size (fields : List (String × Json)) (k : String) :
    sizeOf (lookupField fields k) < 1 + sizeOf fields := by
  unfold lookupField
  cases hf : List.find? (fun p => p.1 == k) fields with
  | none =>
    have h0 : 0 < sizeOf fields := by cases fields <;> simp
    simp
    omega
  | some p =>
    have hm := List.mem_of_find?_eq_some hf
    have h3 := List.sizeOf_lt_of_mem hm
    cases p with
    | mk a b =>
      simp at h3 ⊢
      omega

theorem sort_json_idem_aux : ∀ (n : Nat) (x : Json), sizeOf x ≤ n →
    sort_json (sort_json x) = sort_json x := by
  intro n
  induction n with
  | zero =>
    intro x hx
    have h1 : 0 < sizeOf x := by cases x <;> simp
    omega
  | succ n ih =>
    intro x hx
    cases x with
    | null => simp [sort_json]
    | bool b => simp [sort_json]
    | num m => simp [sort_json]
    | str s => simp [sort_json]
    | arr items =>
      rw [sort_json_arr, sort_json_arr, List.map_map]
      congr 1
      apply List.map_congr_left
      intro a ha
      have h1 := List.sizeOf_lt_of_mem ha
      have h2 : sizeOf (Json.arr items) = 1 + sizeOf items := by simp
      simp only [Function.comp_apply]
      exact ih a (by omega)
    | obj fields =>
      rw [sort_json_obj, sort_json_obj]
      have hkeys : ((sortKeys (fields.map Prod.fst)).map
          (fun k => (k, sort_json (lookupField fields k)))).map Prod.fst
            = sortKeys (fields.map Prod.fst) := by
        rw [List.map_map,
          show (Prod.fst ∘ fun k : String => (k, sort_json (lookupField fields k))) = id from rfl,
          List.map_id]
      rw [hkeys, sortKeys_of_sorted _ (sortKeys_sorted _)]
      congr 1
      apply List.map_congr_left
      intro k hk
      rw [lookupField_map_keys _ _ _ hk]
      have h2 := lookupField_size fields k
      have h3 : sizeOf (Json.obj fields) = 1 + sizeOf fields := by simp
      rw [ih (lookupField fields k) (by omega)]

/-- C7: the recursive JSON key-sorting function is idempotent:
`sort_json (sort_json x) = sort_json x` for every JSON value `x`. -/
theorem sort_json_idempotent : ∀ x : Json, sort_json (sort_json x) = sort_json x :=
  fun x => sort_json_idem_aux (sizeOf x) x (Nat.le_refl _)

theorem allObjSorted_arr_iff (items : List Json) :
    allObjSorted (Json.arr items) = true ↔ ∀ a ∈ items, allObjSorted a = true := by
  rw [allObjSorted]
  simp [List.all_eq_true, List.mem_attach, Subtype.forall]

theorem allObjSorted_obj_iff (fields : List (String × Json)) :
    allObjSorted (Json.obj fields) = true ↔
      (strSorted (fields.map Prod.fst) = true ∧ ∀ p ∈ fields, allObjSorted p.2 = true) := by
  rw [allObjSorted]
  simp [List.all_eq_true, List.mem_attach, Subtype.forall, Bool.and_eq_true]

theorem allObjSorted_sort_json_aux : ∀ (n : Nat) (x : Json), sizeOf x ≤ n →
    allObjSorted (sort_json x) = true := by
  intro n
  induction n with
  | zero =>
    intro x hx
    have h1 : 0 < sizeOf x := by cases x <;> simp
    omega
  | succ n ih =>
    intro x hx
    cases x with
    | null => simp [sort_json, allObjSorted]
    | bool b => simp [sort_json, allObjSorted]
    | num m => simp [sort_json, allObjSorted]
    | str s => simp [sort_json, allObjSorted]
    | arr items =>
      rw [sort_json_arr, allObjSorted_arr_iff]
      intro a ha
      obtain ⟨b, hb, hba⟩ := List.mem_map.mp ha
      have h1 := List.sizeOf_lt_of_mem hb
      have h2 : sizeOf (Json.arr items) = 1 + sizeOf items := by simp
      rw [← hba]
      exact ih b (by omega)
    | obj fields =>
      rw [sort_json_obj, allObjSorted_obj_iff]
      constructor
      · rw [List.map_map,
          show (Prod.fst ∘ fun k : String => (k, sort_json (lookupField fields k))) = id from rfl,
          List.map_id]
        exact sortKeys_sorted _
      · intro p hp
        obtain ⟨k, _, hkp⟩ := List.mem_map.mp hp
        have h2 := lookupField_size fields k
        have h3 : sizeOf (Json.obj fields) = 1 + sizeOf fields := by simp
        rw [← hkp]
        exact ih (lookupField fields k) (by omega)

theorem lookupField_eq_of_mem_nodup (fields : List (String × Json)) (k : String) (v : Json)
    (hnd : (fields.map Prod.fst).Nodup) (hm : (k, v) ∈ fields) : lookupField fields k = v := by
  induction fields with
  | nil => cases hm
  | cons p ps ih =>
    rw [List.map_cons, List.nodup_cons] at hnd
    obtain ⟨hp1, hp2⟩ := hnd
    rw [lookupField_cons]
    rcases List.mem_cons.mp hm with h | h
    · rw [← h]
      simp
    · by_cases hpk : (p.1 == k) = true
      · exfalso
        apply hp1
        rw [beq_iff_eq.mp hpk]
        exact List.mem_map.mpr ⟨(k, v), h, rfl⟩
      · simp only [Bool.not_eq_true] at hpk
        rw [hpk]
        simp only [Bool.false_eq_true, if_false]
        exact ih hp2 h

/-- C8: `sort_json` preserves semantics: scalars are returned unchanged,
array order is preserved with each element recursively sorted, every
object anywhere in the result has its keys in byte/codepoint order, and a
(duplicate-free, as `serde_json::Map` guarantees) object's entries are
exactly the input associations with recursively sorted values, enumerated
in sorted key order. -/
theorem sort_json_preserves_semantics :
    sort_json Json.null = Json.null
    ∧ (∀ b, sort_json (Json.bool b) = Json.bool b)
    ∧ (∀ i : Int, sort_json (Json.num i) = Json.num i)
    ∧ (∀ s, sort_json (Json.str s) = Json.str s)
    ∧ (∀ items, sort_json (Json.arr items) = Json.arr (items.map sort_json))
    ∧ (∀ x, allObjSorted (sort_json x) = true)
    ∧ (∀ fields : List (String × Json), (fields.map Prod.fst).Nodup →
        (objFields (sort_json (Json.obj fields))).map Prod.fst = sortKeys (fields.map Prod.fst)
        ∧ List.Perm ((objFields (sort_json (Json.obj fields))).map Prod.fst)
            (fields.map Prod.fst)
        ∧ (∀ k v, (k, v) ∈ fields → (k, sort_json v) ∈ objFields (sort_json (Json.obj fields)))
        ∧ (∀ k w, (k, w) ∈ objFields (sort_json (Json.obj fields)) →
            ∃ v, (k, v) ∈ fields ∧ w = sort_json v)) := by
  refine ⟨by simp [sort_json], fun b => by simp [sort_json], fun i => by simp [sort_json],
    fun s => by simp [sort_json], sort_json_arr,
    fun x => allObjSorted_sort_json_aux (sizeOf x) x (Nat.le_refl _), ?_⟩
  intro fields hnd
  have hobj : objFields (sort_json (Json.obj fields))
      = (sortKeys (fields.map Prod.fst)).map
          (fun k => (k, sort_json (lookupField fields k))) := by
    rw [sort_json_obj]
    rfl
  have hkeys : (objFields (sort_json (Json.obj fields))).map Prod.fst
      = sortKeys (fields.map Prod.fst) := by
    rw [hobj, List.map_map,
      show (Prod.fst ∘ fun k : String => (k, sort_json (lookupField fields k))) = id from rfl,
      List.map_id]
  refine ⟨hkeys, ?_, ?_, ?_⟩
  · rw [hkeys]
    exact sortKeys_perm _
  · intro k v hm
    rw [hobj]
    apply List.mem_map.mpr
    refine ⟨k, ?_, ?_⟩
    · exact ((sortKeys_perm _).mem_iff).mpr (List.mem_map.mpr ⟨(k, v), hm, rfl⟩)
    · rw [lookupField_eq_of_mem_nodup fields k v hnd hm]
  · intro k w hw
    rw [hobj] at hw
    obtain ⟨k2, hk2, heq⟩ := List.mem_map.mp hw
    have hkk : k2 = k := congrArg Prod.fst heq
    have hww : w = sort_json (lookupField fields k2) := (congrArg Prod.snd heq).symm
    rw [← hkk]
    have hk3 : k2 ∈ fields.map Prod.fst := ((sortKeys_perm _).mem_iff).mp hk2
    obtain ⟨q, hqmem, hqfst⟩ := List.mem_map.mp hk3
    have ha : q.1 = k2 := hqfst
    have hmem2 : (k2, q.2) ∈ fields := by
      rw [show (k2, q.2) = q from by rw [← ha]]
      exact hqmem
    refine ⟨q.2, hmem2, ?_⟩
    rw [hww, lookupField_eq_of_mem_nodup fields k2 q.2 hnd hmem2]

theorem sort_json_preserves_semantics_witness :
    (objFields (sort_json (Json.obj [("b", Json.num 2), ("a", Json.num 1)]))).map Prod.fst
      = sortKeys ["b", "a"]
    ∧ ("a", sort_json (Json.num 1))
        ∈ objFields (sort_json (Json.obj [("b", Json.num 2), ("a", Json.num 1)])) := by
  have h := sort_json_preserves_semantics.2.2.2.2.2.2
    [("b", Json.num 2), ("a", Json.num 1)] (by decide)
  exact ⟨h.1.trans rfl,
    h.2.2.1 "a" (Json.num 1) (List.mem_cons_of_mem _ (List.mem_cons_self _ _))⟩

theorem takeWhile_all_append (p : Char → Bool) (g r : List Char)
    (hg : g.all p = true) (hr : ∀ c, r.head? = some c → p c = false) :
    (g ++ r).takeWhile p = g ∧ (g ++ r).dropWhile p = r := by
  induction g with
  | nil =>
    simp only [List.nil_append]
    cases r with
    | nil => exact ⟨rfl, rfl⟩
    | cons c cs =>
      have hc := hr c rfl
      rw [List.takeWhile_cons, List.dropWhile_cons, hc]
      exact ⟨rfl, rfl⟩
  | cons x xs ih =>
    simp only [List.all_cons, Bool.and_eq_true] at hg
    obtain ⟨hx, hxs⟩ := hg
    obtain ⟨iht, ihd⟩ := ih hxs
    constructor
    · rw [List.cons_append, List.takeWhile_cons, hx]
      simp [iht]
    · rw [List.cons_append, List.dropWhile_cons, hx]
      simp [ihd]

theorem head_dropWhile_false (p : Char → Bool) (l : List Char) :
    ∀ c, (l.dropWhile p).head? = some c → p c = false := by
  induction l with
  | nil => intro c h; cases h
  | cons x xs ih =>
    intro c h
    rw [List.dropWhile_cons] at h
    by_cases hp : p x = true
    · rw [if_pos hp] at h
      exact ih c h
    · rw [if_neg hp] at h
      simp only [List.head?_cons, Option.some.injEq] at h
      rw [← h]
      simp only [Bool.not_eq_true] at hp
      exact hp

theorem validOctet_parts (g : List Char) (h : validOctet g = true) :
    g.isEmpty = false ∧ g.length ≤ 3 ∧ g.all Char.isDigit = true
    ∧ (g.length == 1 || !(g.head? == some '0')) = true ∧ digitsVal 10 g ≤ 255 := by
  unfold validOctet at h
  simp only [Bool.and_eq_true, Bool.not_eq_true', decide_eq_true_eq] at h
  exact ⟨h.1.1.1.1, h.1.1.1.2, h.1.1.2, h.1.2, h.2⟩

theorem validOctet_build (g : List Char)
    (h1 : g.isEmpty = false) (h2 : g.length ≤ 3) (h3 : g.all Char.isDigit = true)
    (h4 : (g.length == 1 || !(g.head? == some '0')) = true) (h5 : digitsVal 10 g ≤ 255) :
    validOctet g = true := by
  unfold validOctet
  simp only [Bool.and_eq_true, Bool.not_eq_true', decide_eq_true_eq]
  exact ⟨⟨⟨⟨h1, h2⟩, h3⟩, h4⟩, h5⟩

theorem isRadixDigit_ten : isRadixDigit 10 = Char.isDigit := by
  funext c
  simp [isRadixDigit]

theorem readNumber_octet (g r : List Char) (hv : validOctet g = true)
    (hr : ∀ c, r.head? = some c → c.isDigit = false) :
    readNumber 10 3 255 false (g ++ r) = some (digitsVal 10 g, r) := by
  obtain ⟨h1, h2, h3, h4, h5⟩ := validOctet_parts g hv
  obtain ⟨ht, hd⟩ := takeWhile_all_append Char.isDigit g r h3 hr
  have hlz : (!false && decide (1 < g.length) && (g.head? == some '0')) = false := by
    simp only [Bool.not_false, Bool.true_and]
    have h4' := h4
    simp only [Bool.or_eq_true] at h4'
    rcases h4' with h | h
    · have hl : g.length = 1 := by simpa using h
      rw [hl]
      simp
    · have h' : (g.head? == some '0') = false := by
        simpa using h
      rw [h']
      simp
  simp only [readNumber, isRadixDigit_ten, ht, hd, h1, hlz, Bool.false_eq_true, if_false]
  rw [if_neg (by omega : ¬ 3 < g.length), if_neg (by omega : ¬ 255 < digitsVal 10 g)]

theorem all_takeWhile_self (p : Char → Bool) (l : List Char) :
    (l.takeWhile p).all p = true := by
  induction l with
  | nil => rfl
  | cons x xs ih =>
    rw [List.takeWhile_cons]
    by_cases h : p x = true
    · rw [if_pos h]
      simp [h, ih]
    · rw [if_neg h]
      rfl

theorem readNumber_inv (s : List Char) (v : Nat) (r : List Char)
    (h : readNumber 10 3 255 false s = some (v, r)) :
    ∃ g, s = g ++ r ∧ validOctet g = true ∧ v = digitsVal 10 g
      ∧ (∀ c, r.head? = some c → c.isDigit = false) := by
  simp only [readNumber, isRadixDigit_ten] at h
  split_ifs at h with h1 h2 h3 h4
  have hp := Option.some.inj h
  have hrr : s.dropWhile Char.isDigit = r := congrArg Prod.snd hp
  have hvv : digitsVal 10 (s.takeWhile Char.isDigit) = v := congrArg Prod.fst hp
  have hlen1 : (s.takeWhile Char.isDigit).length ≠ 0 := by
    intro h0
    apply h1
    cases htw : s.takeWhile Char.isDigit with
    | nil => rfl
    | cons a t =>
      rw [htw] at h0
      cases h0
  refine ⟨s.takeWhile Char.isDigit, ?_, ?_, hvv.symm, ?_⟩
  · rw [← hrr, List.takeWhile_append_dropWhile]
  · apply validOctet_build
    · cases htw : s.takeWhile Char.isDigit with
      | nil => exact absurd (by rw [htw]; rfl) h1
      | cons a t => rfl
    · omega
    · exact all_takeWhile_self Char.isDigit s
    · have h3' : (decide (1 < (s.takeWhile Char.isDigit).length)
          && ((s.takeWhile Char.isDigit).head? == some '0')) = false := by
        simpa using h3
      cases hc : ((s.takeWhile Char.isDigit).head? == some '0') with
      | false => simp [hc]
      | true =>
        rw [hc, Bool.and_true] at h3'
        have hlt : ¬ 1 < (s.takeWhile Char.isDigit).length := by simpa using h3'
        have hone : (s.takeWhile Char.isDigit).length = 1 := by omega
        simp [hone]
    · omega
  · intro c hc
    rw [← hrr] at hc
    exact head_dropWhile_false Char.isDigit s c hc

theorem splitOnChar_append_cons (c : Char) (b : List Char) :
    ∀ (a : List Char), c ∉ a → splitOnChar c (a ++ c :: b) = a :: splitOnChar c b := by
  intro a
  induction a with
  | nil =>
    intro _
    simp [splitOnChar]
  | cons x xs ih =>
    intro ha
    have hx : (x == c) = false := by
      apply beq_eq_false_iff_ne.mpr
      intro h
      subst h
      exact ha (List.mem_cons_self x xs)
    rw [List.cons_append]
    simp only [splitOnChar, hx, Bool.false_eq_true, if_false]
    rw [ih (fun hm => ha (List.mem_cons_of_mem _ hm))]

theorem splitOnChar_no_sep (c : Char) (a : List Char) (ha : c ∉ a) :
    splitOnChar c a = [a] := by
  induction a with
  | nil => rfl
  | cons x xs ih =>
    have hx : (x == c) = false := by
      apply beq_eq_false_iff_ne.mpr
      intro h
      subst h
      exact ha (List.mem_cons_self x xs)
    simp only [splitOnChar, hx, Bool.false_eq_true, if_false]
    rw [ih (fun hm => ha (List.mem_cons_of_mem _ hm))]

theorem splitOnChar_ne_nil (c : Char) (l : List Char) : splitOnChar c l ≠ [] := by
  cases l with
  | nil => simp [splitOnChar]
  | cons x xs =>
    simp only [splitOnChar]
    by_cases h : (x == c) = true
    · rw [if_pos h]
      simp
    · rw [if_neg h]
      cases hs : splitOnChar c xs <;> simp

theorem splitOnChar_join (c : Char) (l : List Char) : joinWithChar c (splitOnChar c l) = l := by
  induction l with
  | nil => rfl
  | cons x xs ih =>
    simp only [splitOnChar]
    by_cases h : (x == c) = true
    · rw [if_pos h]
      have hx := beq_iff_eq.mp h
      subst hx
      cases hs : splitOnChar x xs with
      | nil => exact absurd hs (splitOnChar_ne_nil x xs)
      | cons g gs =>
        rw [hs] at ih
        rw [show joinWithChar x ([] :: g :: gs) = [] ++ x :: joinWithChar x (g :: gs) from rfl]
        rw [ih]
        rfl
    · rw [if_neg h]
      cases hs : splitOnChar c xs with
      | nil => exact absurd hs (splitOnChar_ne_nil c xs)
      | cons g gs =>
        rw [hs] at ih
        cases gs with
        | nil =>
          rw [show joinWithChar c [x :: g] = x :: g from rfl]
          rw [show joinWithChar c [g] = g from rfl] at ih
          rw [ih]
        | cons g2 gs2 =>
          rw [show joinWithChar c ((x :: g) :: g2 :: gs2)
              = (x :: g) ++ c :: joinWithChar c (g2 :: gs2) from rfl]
          rw [show joinWithChar c (g :: g2 :: gs2)
              = g ++ c :: joinWithChar c (g2 :: gs2) from rfl] at ih
          rw [List.cons_append, ih]

theorem readIpv4Groups_succ_dot (n : Nat) (s1 : List Char) :
    readIpv4Groups (n + 1) ('.' :: s1)
      = match readNumber 10 3 255 false s1 with
        | some (a, s2) =>
          match readIpv4Groups n s2 with
          | some (as, s3) => some (a :: as, s3)
          | none => none
        | none => none := by
  simp [readIpv4Groups]

theorem readIpv4Groups_succ_ne (n : Nat) (x : Char) (s1 : List Char)
    (hx : (x == '.') = false) : readIpv4Groups (n + 1) (x :: s1) = none := by
  simp [readIpv4Groups, hx]

theorem readIpv4Groups_build : ∀ (gs : List (List Char)) (r : List Char),
    (∀ g ∈ gs, validOctet g = true) →
    (∀ c, r.head? = some c → c.isDigit = false) →
    readIpv4Groups gs.length (gs.foldr (fun g acc => '.' :: (g ++ acc)) r)
      = some (gs.map (digitsVal 10), r) := by
  intro gs
  induction gs with
  | nil =>
    intro r _ _
    rfl
  | cons g gs2 ih =>
    intro r hv hr
    simp only [List.foldr_cons, List.length_cons, List.map_cons]
    rw [readIpv4Groups_succ_dot]
    have hd : ∀ c, (gs2.foldr (fun g acc => '.' :: (g ++ acc)) r).head? = some c →
        c.isDigit = false := by
      cases gs2 with
      | nil => simpa using hr
      | cons g2 gs3 =>
        intro c hc
        simp only [List.foldr_cons, List.head?_cons, Option.some.injEq] at hc
        rw [← hc]
        decide
    rw [readNumber_octet g _ (hv g (List.mem_cons_self g gs2)) hd]
    show (match readIpv4Groups gs2.length (gs2.foldr (fun g acc => '.' :: (g ++ acc)) r) with
          | some (as, s3) => some (digitsVal 10 g :: as, s3)
          | none => none)
        = some (digitsVal 10 g :: gs2.map (digitsVal 10), r)
    rw [ih r (fun g2 hg2 => hv g2 (List.mem_cons_of_mem _ hg2)) hr]

theorem readIpv4Groups_inv : ∀ (n : Nat) (s : List Char) (as : List Nat) (r : List Char),
    readIpv4Groups n s = some (as, r) →
    ∃ gs : List (List Char), gs.length = n ∧ as = gs.map (digitsVal 10)
      ∧ (∀ g ∈ gs, validOctet g = true)
      ∧ s = gs.foldr (fun g acc => '.' :: (g ++ acc)) r := by
  intro n
  induction n with
  | zero =>
    intro s as r h
    have hp := Option.some.inj h
    refine ⟨[], rfl, (congrArg Prod.fst hp).symm, ?_, ?_⟩
    · intro g hg
      cases hg
    · simp only [List.foldr_nil]
      exact congrArg Prod.snd hp
  | succ n ih =>
    intro s as r h
    cases s with
    | nil => exact Option.noConfusion h
    | cons x s1 =>
      by_cases hx : (x == '.') = true
      · have hx2 := beq_iff_eq.mp hx
        subst hx2
        rw [readIpv4Groups_succ_dot] at h
        cases hn : readNumber 10 3 255 false s1 with
        | none =>
          rw [hn] at h
          exact Option.noConfusion h
        | some p =>
          obtain ⟨v, s2⟩ := p
          rw [hn] at h
          have h2 : (match readIpv4Groups n s2 with
              | some (as2, s3) => some (v :: as2, s3)
              | none => none) = some (as, r) := h
          cases hg : readIpv4Groups n s2 with
          | none =>
            rw [hg] at h2
            exact Option.noConfusion h2
          | some q =>
            obtain ⟨as2, s3⟩ := q
            rw [hg] at h2
            have hp := Option.some.inj h2
            have ha : v :: as2 = as := congrArg Prod.fst hp
            have hr2 : s3 = r := congrArg Prod.snd hp
            obtain ⟨g, hs1, hgv, hvv, _⟩ := readNumber_inv s1 v s2 hn
            obtain ⟨gs, hl, hmap, hval, hfold⟩ := ih s2 as2 s3 hg
            refine ⟨g :: gs, by simp [hl], ?_, ?_, ?_⟩
            · rw [← ha, hmap, hvv]
              simp
            · intro g2 hg2
              rcases List.mem_cons.mp hg2 with h3 | h3
              · rw [h3]
                exact hgv
              · exact hval g2 h3
            · simp only [List.foldr_cons]
              rw [hs1, hfold, hr2]
      · rw [readIpv4Groups_succ_ne n x s1 (by simpa using hx)] at h
        exact Option.noConfusion h

theorem readIpv4_full (g1 : List Char) (gs : List (List Char)) (hlen : gs.length = 3)
    (hg1 : validOctet g1 = true) (hgs : ∀ g ∈ gs, validOctet g = true) :
    readIpv4 (g1 ++ gs.foldr (fun g acc => '.' :: (g ++ acc)) [])
      = some (digitsVal 10 g1 :: gs.map (digitsVal 10), []) := by
  unfold readIpv4
  have hd : ∀ c, (gs.foldr (fun g acc => '.' :: (g ++ acc)) []).head? = some c →
      c.isDigit = false := by
    cases gs with
    | nil =>
      intro c hc
      cases hc
    | cons g2 gs2 =>
      intro c hc
      simp only [List.foldr_cons, List.head?_cons, Option.some.injEq] at hc
      rw [← hc]
      decide
  rw [readNumber_octet g1 _ hg1 hd]
  show (match readIpv4Groups 3 (gs.foldr (fun g acc => '.' :: (g ++ acc)) []) with
        | some (as, s2) => some (digitsVal 10 g1 :: as, s2)
        | none => none)
      = some (digitsVal 10 g1 :: gs.map (digitsVal 10), [])
  rw [← hlen, readIpv4Groups_build gs [] hgs (fun c hc => by cases hc)]

theorem quad_of_readIpv4 (l : List Char) (vs : List Nat)
    (h : readIpv4 l = some (vs, [])) :
    ∃ (g1 : List Char) (gs : List (List Char)),
      l = g1 ++ gs.foldr (fun g acc => '.' :: (g ++ acc)) []
      ∧ gs.length = 3 ∧ validOctet g1 = true ∧ (∀ g ∈ gs, validOctet g = true) := by
  unfold readIpv4 at h
  cases hn : readNumber 10 3 255 false l with
  | none =>
    rw [hn] at h
    exact Option.noConfusion h
  | some p =>
    obtain ⟨v, s1⟩ := p
    rw [hn] at h
    have h2 : (match readIpv4Groups 3 s1 with
        | some (as, s2) => some (v :: as, s2)
        | none => none) = some (vs, []) := h
    cases hg : readIpv4Groups 3 s1 with
    | none =>
      rw [hg] at h2
      exact Option.noConfusion h2
    | some q =>
      obtain ⟨as, s2⟩ := q
      rw [hg] at h2
      have hp := Option.some.inj h2
      have hs2 : s2 = [] := congrArg Prod.snd hp
      obtain ⟨g1, hl, hv1, _, _⟩ := readNumber_inv l v s1 hn
      obtain ⟨gs, hlen, _, hval, hfold⟩ := readIpv4Groups_inv 3 s1 as s2 hg
      refine ⟨g1, gs, ?_, hlen, hv1, hval⟩
      rw [hl, hfold, hs2]

theorem not_dot_mem_of_validOctet (g : List Char) (hg : validOctet g = true) : '.' ∉ g := by
  intro hm
  have hall := (validOctet_parts g hg).2.2.1
  have h2 := List.all_eq_true.mp hall '.' hm
  simp at h2

theorem Ipv4FromStr_eq_quadStrict (s : String) : Ipv4FromStr s = specDottedQuadStrict s := by
  cases hA : Ipv4FromStr s with
  | true =>
    unfold Ipv4FromStr at hA
    cases hr : readIpv4 s.data with
    | none =>
      rw [hr] at hA
      cases hA
    | some p =>
      obtain ⟨vs, rest⟩ := p
      rw [hr] at hA
      have hrest : rest = [] := by
        cases rest with
        | nil => rfl
        | cons a t => cases hA
      subst hrest
      obtain ⟨g1, gs, hl, hlen, hv1, hval⟩ := quad_of_readIpv4 s.data vs hr
      obtain ⟨g2, g3, g4, hgs⟩ : ∃ g2 g3 g4, gs = [g2, g3, g4] := by
        cases gs with
        | nil => simp at hlen
        | cons a t =>
          cases t with
          | nil => simp at hlen
          | cons b t2 =>
            cases t2 with
            | nil => simp at hlen
            | cons c t3 =>
              cases t3 with
              | nil => exact ⟨a, b, c, rfl⟩
              | cons d t4 => simp at hlen
      subst hgs
      have hm2 : validOctet g2 = true := hval g2 (by simp)
      have hm3 : validOctet g3 = true := hval g3 (by simp)
      have hm4 : validOctet g4 = true := hval g4 (by simp)
      unfold specDottedQuadStrict
      rw [hl]
      simp only [List.foldr_cons, List.foldr_nil, List.append_nil]
      rw [splitOnChar_append_cons _ _ _ (not_dot_mem_of_validOctet g1 hv1),
        splitOnChar_append_cons _ _ _ (not_dot_mem_of_validOctet g2 hm2),
        splitOnChar_append_cons _ _ _ (not_dot_mem_of_validOctet g3 hm3),
        splitOnChar_no_sep _ _ (not_dot_mem_of_validOctet g4 hm4)]
      simp [hv1, hm2, hm3, hm4]
  | false =>
    cases hB : specDottedQuadStrict s with
    | false => rfl
    | true =>
      exfalso
      unfold specDottedQuadStrict at hB
      cases hsp : splitOnChar '.' s.data with
      | nil => exact absurd hsp (splitOnChar_ne_nil '.' s.data)
      | cons a t =>
        rw [hsp] at hB
        cases t with
        | nil => exact Bool.false_ne_true hB
        | cons b t2 =>
          cases t2 with
          | nil => exact Bool.false_ne_true hB
          | cons c t3 =>
            cases t3 with
            | nil => exact Bool.false_ne_true hB
            | cons d t4 =>
              cases t4 with
              | cons e t5 => exact Bool.false_ne_true hB
              | nil =>
                have hB2 : (validOctet a && validOctet b && validOctet c && validOctet d)
                    = true := hB
                simp only [Bool.and_eq_true] at hB2
                obtain ⟨⟨⟨hva, hvb⟩, hvc⟩, hvd⟩ := hB2
                have hjoin := splitOnChar_join '.' s.data
                rw [hsp] at hjoin
                have hdata : s.data = a ++ '.' :: (b ++ '.' :: (c ++ '.' :: d)) := by
                  rw [← hjoin]
                  rfl
                have hfull := readIpv4_full a [b, c, d] rfl hva (by
                  intro g hg
                  rcases List.mem_cons.mp hg with h1 | h1
                  · rw [h1]; exact hvb
                  · rcases List.mem_cons.mp h1 with h2 | h2
                    · rw [h2]; exact hvc
                    · rcases List.mem_cons.mp h2 with h3 | h3
                      · rw [h3]; exact hvd
                      · cases h3)
                have hrewrite : a ++ List.foldr (fun g acc => '.' :: (g ++ acc)) [] [b, c, d]
                    = s.data := by
                  rw [hdata]
                  simp [List.append_nil]
                rw [hrewrite] at hfull
                unfold Ipv4FromStr at hA
                rw [hfull] at hA
                exact Bool.noConfusion (show (true : Bool) = false from hA)

theorem check_ip_digitdot_reduction (h : String)
    (hd : h.data.all (fun c => c.isDigit || c == '.') = true)
    (hip4 : Ipv4FromStr h = false) :
    check_ip_address (some h) = Except.error "The URL contains an invalid IPv4 address." := by
  have hbr : strStartsWith h '[' = false := by
    unfold strStartsWith
    cases hdata : h.data with
    | nil => rfl
    | cons x xs =>
      rw [hdata] at hd
      have hx := List.all_eq_true.mp hd x (List.mem_cons_self x xs)
      apply beq_eq_false_iff_ne.mpr
      intro hxe
      subst hxe
      simp at hx
  simp only [check_ip_address, hip4, Bool.false_eq_true, if_false, hbr, Bool.false_and, hd,
    if_true]

/-- C1 (amended): for a host made only of decimal digits and dots, the
validator returns Valid exactly when the host is a strict dotted quad —
four octets, each 1–3 digits with value 0–255 and no leading zero (the
octet `"0"` itself is allowed) — and otherwise returns the
invalid-IPv4-address error. -/
theorem digitdot_host_valid_iff_strict_quad :
    ∀ h : String, h.data.all (fun c => c.isDigit || c == '.') = true →
      (check_ip_address (some h) = Except.ok () ↔ specDottedQuadStrict h = true)
      ∧ (specDottedQuadStrict h = false →
          check_ip_address (some h)
            = Except.error "The URL contains an invalid IPv4 address.") := by
  intro h hd
  have heq := Ipv4FromStr_eq_quadStrict h
  cases hq : specDottedQuadStrict h with
  | true =>
    have hip : Ipv4FromStr h = true := by rw [heq, hq]
    refine ⟨⟨fun _ => rfl, fun _ => ?_⟩, fun hfalse => Bool.noConfusion hfalse⟩
    simp [check_ip_address, hip]
  | false =>
    have hip : Ipv4FromStr h = false := by rw [heq, hq]
    have herr := check_ip_digitdot_reduction h hd hip
    refine ⟨⟨fun hok => ?_, fun ht => Bool.noConfusion ht⟩, fun _ => herr⟩
    rw [herr] at hok
    exact Except.noConfusion hok

/-- Counterexample to C1 as stated: `"1.2.3.04"` is made only of digits and
dots and is a dotted quad of four octets each 0–255 in the spec's words
(`specDottedQuad`), yet the validator rejects it as an invalid IPv4
address, because the standard-library IPv4 parser refuses the leading zero
in `"04"`. -/
theorem digitdot_host_counterexample :
    ("1.2.3.04".data.all (fun c => c.isDigit || c == '.')) = true
    ∧ specDottedQuad "1.2.3.04" = true
    ∧ check_ip_address (some "1.2.3.04")
        = Except.error "The URL contains an invalid IPv4 address." :=
  ⟨by decide, by decide, rfl⟩

theorem digitdot_host_valid_iff_strict_quad_witness :
    check_ip_address (some "999.1.1.1")
        = Except.error "The URL contains an invalid IPv4 address."
    ∧ check_ip_address (some "1.2.3")
        = Except.error "The URL contains an invalid IPv4 address."
    ∧ check_ip_address (some "1.2.3.4") = Except.ok () :=
  ⟨(digitdot_host_valid_iff_strict_quad "999.1.1.1" (by decide)).2 (by decide),
   (digitdot_host_valid_iff_strict_quad "1.2.3" (by decide)).2 (by decide),
   ((digitdot_host_valid_iff_strict_quad "1.2.3.4" (by decide)).1).mpr (by decide)⟩
